import Mathlib

/-!
Shallow embedding of `scripts/update_data.py` (kittycapital/crypto-treasury).

Modelling conventions:

* Dates are modelled structurally as `(year, month, day)`.  Python `datetime`
  comparison is lexicographic on the fields, and `(a - b).days` equals the
  difference of proleptic Gregorian ordinals, which `Date.toOrdinal` computes
  (same formula as `datetime.date.toordinal`).  Date strings `"YYYY-MM-DD"`
  produced by `strftime` are in bijection with the dates they denote; string
  equality coincides with structural date equality and string order with
  lexicographic field order, so dict keys and sort keys are modelled directly
  on `Date` values.
* Prices are modelled as rationals; Python `round(x, n)` is modelled as exact
  round-half-to-even at `n` decimal places (binary floating-point
  representation error is out of scope of the embedding).
* A fetch that raises (transport error, HTTP error status raised by
  `raise_for_status`, parse failure) is modelled as the adapter receiving
  `none`; the upstream payload, when the request succeeds, is modelled as the
  list of day-resolution `(date, price)` pairs it decodes to.
-/

namespace CryptoTreasury

/-- Calendar date at day resolution, as carried by the `"%Y-%m-%d"` strings
of the script. -/
structure Date where
  year : ℕ
  month : ℕ
  day : ℕ
deriving DecidableEq, Repr

/-- Python `datetime` strict comparison: lexicographic on the fields. -/
def Date.lexLt (a b : Date) : Bool :=
  decide (a.year < b.year) ||
    (decide (a.year = b.year) && (decide (a.month < b.month) ||
      (decide (a.month = b.month) && decide (a.day < b.day))))

/-- Python `datetime` comparison `<=`: lexicographic on the fields. -/
def Date.lexLe (a b : Date) : Bool :=
  Date.lexLt a b || decide (a = b)

/-- Gregorian leap-year test, as in `datetime`. -/
def isLeap (y : ℕ) : Bool :=
  (decide (y % 4 = 0) && decide (¬ y % 100 = 0)) || decide (y % 400 = 0)

/-- Days in the year strictly before month `m` (months are 1-based). -/
def daysBeforeMonth (m : ℕ) (leap : Bool) : ℕ :=
  let base := [0, 0, 31, 59, 90, 120, 151, 181, 212, 243, 273, 304, 334].getD m 0
  if decide (2 < m) && leap then base + 1 else base

/-- Proleptic Gregorian ordinal of a date, `Date.toOrdinal ⟨1,1,1⟩ = 1`;
this is `datetime.date.toordinal`, so Python `(a - b).days` for midnight
datetimes is `a.toOrdinal - b.toOrdinal`. -/
def Date.toOrdinal (dt : Date) : ℤ :=
  let y := dt.year - 1
  ((365 * y + y / 4 - y / 100 + y / 400
      + daysBeforeMonth dt.month (isLeap dt.year) + dt.day : ℕ) : ℤ)

/-- A date a Python `datetime` object can actually hold (what `strptime`
accepts; the bounds on `day` are the coarse `1..31` envelope, enough for the
facts proved here). -/
def Date.Valid (dt : Date) : Prop :=
  1 ≤ dt.year ∧ 1 ≤ dt.month ∧ dt.month ≤ 12 ∧ 1 ≤ dt.day ∧ dt.day ≤ 31

instance (dt : Date) : Decidable dt.Valid := by
  unfold Date.Valid; infer_instance

/-- One `{"date": ..., "price": ...}` record of the script. -/
structure PricePoint where
  date : Date
  price : ℚ
deriving DecidableEq, Repr

/-- Python `round` to an integer: round half to even. -/
def pyRoundInt (x : ℚ) : ℤ :=
  let f := ⌊x⌋
  if x - f < 1 / 2 then f
  else if (1 : ℚ) / 2 < x - f then f + 1
  else if f % 2 = 0 then f else f + 1

/-- Python `round(x, places)`: round half to even at `places` decimals. -/
def pyRound (places : ℕ) (x : ℚ) : ℚ :=
  (pyRoundInt (x * (10 : ℚ) ^ places) : ℚ) / (10 : ℚ) ^ places

/-! ## Normalizer (`get_crypto_data`, lines 183-188)

```
seen = {}
for p in prices:
    seen[p["date"]] = p
prices = list(seen.values())
prices.sort(key=lambda x: x["date"])
```

A Python dict is an insertion-ordered association list whose writes replace
the value at an existing key in place; `insertSeen` is one write
`seen[p["date"]] = p`. -/

def insertSeen : List PricePoint → PricePoint → List PricePoint
  | [], p => [p]
  | q :: qs, p => if q.date = p.date then p :: qs else q :: insertSeen qs p

/-- `list(seen.values())` after writing every point in input order. -/
def dedupLast (prices : List PricePoint) : List PricePoint :=
  prices.foldl insertSeen []

/-- `prices.sort(key=lambda x: x["date"])`: stable ascending sort by the date
string, i.e. by lexicographic field order. -/
def sortByDate (prices : List PricePoint) : List PricePoint :=
  prices.mergeSort (fun a b => Date.lexLe a.date b.date)

/-- The Normalizer: deduplicate by date (last write wins), then sort
ascending by date. -/
def normalize (prices : List PricePoint) : List PricePoint :=
  sortByDate (dedupLast prices)

/-! ## Source Adapters -/

/-- Tiered rounding of one decoded `[timestamp_ms, price]` item of
`get_crypto_data` (lines 175-181), the timestamp already truncated to its
calendar date by `fromtimestamp(...).strftime("%Y-%m-%d")`. -/
def roundTiered (item : Date × ℚ) : PricePoint :=
  if item.2 < 1 / 100 then ⟨item.1, pyRound 8 item.2⟩
  else if item.2 < 1 then ⟨item.1, pyRound 6 item.2⟩
  else ⟨item.1, pyRound 2 item.2⟩

/-- Parse of a successful crypto response body (lines 170-190): tiered
rounding, then the dedup-and-sort step. -/
def parseCrypto (items : List (Date × ℚ)) : List PricePoint :=
  normalize (items.map roundTiered)

/-- `get_crypto_data` (lines 151-194): one request; a raised exception
(`none`) is caught and yields `[]`. -/
def get_crypto_data (fetched : Option (List (Date × ℚ))) : List PricePoint :=
  match fetched with
  | none => []
  | some items => parseCrypto items

/-- `get_stock_data` (lines 125-148): rows of the dataframe in upstream
order, close rounded to 2 places; empty dataframe or a raised exception
(`none`) yields `[]`.  No dedup and no sort happen here. -/
def get_stock_data (fetched : Option (List (Date × ℚ))) : List PricePoint :=
  match fetched with
  | none => []
  | some rows =>
    if rows = [] then []
    else rows.map (fun row => ⟨row.1, pyRound 2 row.2⟩)

/-! ## Performance Calculator (`calculate_performance`, lines 197-252) -/

/-- The report: one optional percentage per period label. -/
structure Performance where
  p1W : Option ℚ
  p3M : Option ℚ
  p6M : Option ℚ
  pYTD : Option ℚ
  p1Y : Option ℚ
deriving DecidableEq, Repr

/-- Absolute day distance of a point to a target ordinal:
`abs((p_date - target_date).days)`. -/
def diffTo (target : ℤ) (p : PricePoint) : ℤ :=
  |p.date.toOrdinal - target|

/-- One iteration of the closest-point scan: state is
`(min_diff, closest_price)`, `none` standing for the initial
`(inf, None)`; `ok` is the date-side condition of the `if`
(`p_date <= current_date` for the fixed windows,
`p_date >= ytd_start` for YTD). -/
def closestScanStep (ok : PricePoint → Bool) (target : ℤ)
    (st : Option (ℤ × ℚ)) (p : PricePoint) : Option (ℤ × ℚ) :=
  if (match st with
      | none => true
      | some (m, _) => decide (diffTo target p < m)) && ok p
  then some (diffTo target p, p.price) else st

/-- The full scan `for p in prices: ...` of lines 221-226 / 239-244. -/
def closestScan (ok : PricePoint → Bool) (target : ℤ)
    (prices : List PricePoint) : Option (ℤ × ℚ) :=
  prices.foldl (closestScanStep ok target) none

/-- Lines 228-232 / 246-250: `if closest_price and closest_price > 0`
(Python truthiness: `None` and `0.0` are falsy, so the guard is exactly
`0 < closest_price` over an existing anchor). -/
def periodResult (ok : PricePoint → Bool) (target : ℤ)
    (current_price : ℚ) (prices : List PricePoint) : Option ℚ :=
  match closestScan ok target prices with
  | some (_, c) =>
    if 0 < c then some (pyRound 2 ((current_price - c) / c * 100)) else none
  | none => none

/-- `calculate_performance` with the period loop over
`{"1W": 7, "3M": 90, "6M": 180, "1Y": 365}` unrolled and the separate YTD
pass; `if not prices or len(prices) < 2` is exactly the first two cases. -/
def calculate_performance : List PricePoint → Performance
  | [] => ⟨none, none, none, none, none⟩
  | [_] => ⟨none, none, none, none, none⟩
  | p :: q :: rest =>
    let prices := p :: q :: rest
    let lastP := (q :: rest).getLast (List.cons_ne_nil q rest)
    let ok := fun r : PricePoint => Date.lexLe r.date lastP.date
    let ytdStart : Date := ⟨lastP.date.year, 1, 1⟩
    let okY := fun r : PricePoint => Date.lexLe ytdStart r.date
    { p1W := periodResult ok (lastP.date.toOrdinal - 7) lastP.price prices
      p3M := periodResult ok (lastP.date.toOrdinal - 90) lastP.price prices
      p6M := periodResult ok (lastP.date.toOrdinal - 180) lastP.price prices
      pYTD := periodResult okY ytdStart.toOrdinal lastP.price prices
      p1Y := periodResult ok (lastP.date.toOrdinal - 365) lastP.price prices }

/-- The all-null report. -/
def allNull : Performance := ⟨none, none, none, none, none⟩

/-! ## Facts about the date order -/

theorem Date.lexLe_refl (a : Date) : Date.lexLe a a = true := by
  simp [Date.lexLe]

theorem Date.lexLe_trans {a b c : Date} (hab : Date.lexLe a b = true)
    (hbc : Date.lexLe b c = true) : Date.lexLe a c = true := by
  obtain ⟨y1, m1, d1⟩ := a
  obtain ⟨y2, m2, d2⟩ := b
  obtain ⟨y3, m3, d3⟩ := c
  simp only [Date.lexLe, Date.lexLt, Date.mk.injEq, Bool.or_eq_true,
    Bool.and_eq_true, decide_eq_true_eq, true_and, and_true, lt_self_iff_false,
    false_or] at hab hbc ⊢
  omega

theorem Date.lexLe_total (a b : Date) :
    (Date.lexLe a b || Date.lexLe b a) = true := by
  obtain ⟨y1, m1, d1⟩ := a
  obtain ⟨y2, m2, d2⟩ := b
  simp only [Date.lexLe, Date.lexLt, Date.mk.injEq, Bool.or_eq_true,
    Bool.and_eq_true, decide_eq_true_eq, true_and, and_true, lt_self_iff_false,
    false_or]
  omega

theorem Date.lexLt_of_lexLe_of_ne {a b : Date} (h : Date.lexLe a b = true)
    (hne : a ≠ b) : Date.lexLt a b = true := by
  obtain ⟨y1, m1, d1⟩ := a
  obtain ⟨y2, m2, d2⟩ := b
  simp only [Date.lexLe, Date.lexLt, Date.mk.injEq, Bool.or_eq_true,
    Bool.and_eq_true, decide_eq_true_eq, true_and, and_true, lt_self_iff_false,
    false_or] at h ⊢
  simp only [ne_eq, Date.mk.injEq, not_and] at hne
  rcases h with h | h
  · exact h
  · exact absurd (by omega : y1 = y2 ∧ m1 = m2 ∧ d1 = d2) (by tauto)

/-- January 1 of the year of a representable date is on or before it. -/
theorem Date.jan1_lexLe {d : Date} (h : d.Valid) :
    Date.lexLe ⟨d.year, 1, 1⟩ d = true := by
  obtain ⟨y, m, dd⟩ := d
  simp only [Date.Valid] at h
  simp only [Date.lexLe, Date.lexLt, Date.mk.injEq, Bool.or_eq_true,
    Bool.and_eq_true, decide_eq_true_eq, true_and, and_true, lt_self_iff_false,
    false_or]
  omega

/-! ## Facts about the Normalizer -/

/-- No two points of the list share a date (the dict invariant). -/
def DatesNodup (l : List PricePoint) : Prop :=
  l.Pairwise (fun a b => a.date ≠ b.date)

theorem mem_insertSeen {acc : List PricePoint} {p r : PricePoint}
    (h : r ∈ insertSeen acc p) : r = p ∨ r ∈ acc := by
  induction acc with
  | nil => simpa [insertSeen] using h
  | cons q qs ih =>
    simp only [insertSeen] at h
    by_cases hq : q.date = p.date
    · rw [if_pos hq] at h
      rcases List.mem_cons.mp h with h | h
      · exact Or.inl h
      · exact Or.inr (List.mem_cons_of_mem q h)
    · rw [if_neg hq] at h
      rcases List.mem_cons.mp h with h | h
      · exact Or.inr (h ▸ List.mem_cons_self q qs)
      · rcases ih h with h | h
        · exact Or.inl h
        · exact Or.inr (List.mem_cons_of_mem q h)

theorem datesNodup_insertSeen {acc : List PricePoint} {p : PricePoint}
    (h : DatesNodup acc) : DatesNodup (insertSeen acc p) := by
  induction acc with
  | nil => simp [insertSeen, DatesNodup]
  | cons q qs ih =>
    rcases (List.pairwise_cons.mp h) with ⟨hq, hqs⟩
    simp only [insertSeen]
    by_cases hd : q.date = p.date
    · rw [if_pos hd]
      exact List.pairwise_cons.mpr ⟨fun r hr => hd ▸ hq r hr, hqs⟩
    · rw [if_neg hd]
      refine List.pairwise_cons.mpr ⟨fun r hr => ?_, ih hqs⟩
      rcases mem_insertSeen hr with rfl | hr
      · exact hd
      · exact hq r hr

theorem filter_insertSeen {acc : List PricePoint} {p : PricePoint} (d : Date)
    (h : DatesNodup acc) :
    (insertSeen acc p).filter (fun r => r.date = d) =
      if p.date = d then [p] else acc.filter (fun r => r.date = d) := by
  induction acc with
  | nil => by_cases hp : p.date = d <;> simp [insertSeen, hp]
  | cons q qs ih =>
    rcases (List.pairwise_cons.mp h) with ⟨hq, hqs⟩
    simp only [insertSeen]
    by_cases hd : q.date = p.date
    · rw [if_pos hd]
      by_cases hp : p.date = d
      · rw [if_pos hp]
        have hqs0 : qs.filter (fun r => r.date = d) = [] := by
          apply List.filter_eq_nil_iff.mpr
          intro r hr
          simp only [decide_eq_true_eq]
          intro hrd
          exact hq r hr ((hd.trans hp).trans hrd.symm)
        simp [List.filter_cons, hp, hqs0]
      · have hqd : ¬ q.date = d := fun hc => hp (hd ▸ hc)
        simp [List.filter_cons, hp, hqd]
    · rw [if_neg hd]
      by_cases hp : p.date = d
      · rw [if_pos hp]
        have hqd : ¬ q.date = d := fun hc => hd (hc.trans hp.symm)
        simp [List.filter_cons, hqd, ih hqs, hp]
      · rw [if_neg hp]
        by_cases hqd : q.date = d
        · simp [List.filter_cons, hqd, ih hqs, hp]
        · simp [List.filter_cons, hqd, ih hqs, hp]

theorem datesNodup_foldl_insertSeen (l : List PricePoint) :
    ∀ acc, DatesNodup acc → DatesNodup (l.foldl insertSeen acc) := by
  induction l with
  | nil => intro acc h; exact h
  | cons p ps ih =>
    intro acc h
    exact ih (insertSeen acc p) (datesNodup_insertSeen h)

theorem datesNodup_dedupLast (l : List PricePoint) : DatesNodup (dedupLast l) :=
  datesNodup_foldl_insertSeen l [] List.Pairwise.nil

theorem filter_foldl_insertSeen (d : Date) (l : List PricePoint) :
    ∀ acc, DatesNodup acc →
      (l.foldl insertSeen acc).filter (fun r => r.date = d) =
        match (l.filter (fun r => r.date = d)).getLast? with
        | none => acc.filter (fun r => r.date = d)
        | some x => [x] := by
  induction l with
  | nil => intro acc _; simp
  | cons p ps ih =>
    intro acc hacc
    have step := ih (insertSeen acc p) (datesNodup_insertSeen hacc)
    simp only [List.foldl_cons] at step ⊢
    rw [step]
    by_cases hp : p.date = d
    · rw [List.filter_cons_of_pos (by simp [hp])]
      rcases hlast : (ps.filter (fun r => r.date = d)).getLast? with _ | x
      · have hnil : ps.filter (fun r => r.date = d) = [] :=
          List.getLast?_eq_none_iff.mp hlast
        rw [hnil]
        simp [filter_insertSeen d hacc, hp]
      · have hne : ps.filter (fun r => r.date = d) ≠ [] := by
          intro hc; rw [hc] at hlast; simp at hlast
        rcases List.exists_cons_of_ne_nil hne with ⟨y, t, hyt⟩
        rw [hyt]
        rw [hyt] at hlast
        simp [List.getLast?_cons_cons, hlast]
    · rw [List.filter_cons_of_neg (by simp [hp])]
      rcases hlast : (ps.filter (fun r => r.date = d)).getLast? with _ | x
      · simp [hlast, filter_insertSeen d hacc, hp]
      · simp [hlast]

/-- The per-date content of the dedup step: exactly the last input point
with each present date survives. -/
theorem filter_dedupLast (d : Date) (l : List PricePoint) :
    (dedupLast l).filter (fun r => r.date = d) =
      ((l.filter (fun r => r.date = d)).getLast?).toList := by
  have h := filter_foldl_insertSeen d l [] List.Pairwise.nil
  rcases hlast : (l.filter (fun r => r.date = d)).getLast? with _ | x
  · rw [dedupLast, h, hlast]; rfl
  · rw [dedupLast, h, hlast]; rfl

theorem normalize_perm_dedupLast (l : List PricePoint) :
    (normalize l).Perm (dedupLast l) :=
  List.mergeSort_perm (dedupLast l) _

theorem datesNodup_normalize (l : List PricePoint) : DatesNodup (normalize l) := by
  have hsym : ∀ {x y : PricePoint}, x.date ≠ y.date → y.date ≠ x.date :=
    fun h hc => h hc.symm
  exact (List.Perm.pairwise_iff hsym (normalize_perm_dedupLast l)).mpr
    (datesNodup_dedupLast l)

theorem sorted_normalize_le (l : List PricePoint) :
    (normalize l).Pairwise (fun a b => Date.lexLe a.date b.date = true) := by
  apply List.sorted_mergeSort
  · exact fun a b c hab hbc => Date.lexLe_trans hab hbc
  · exact fun a b => Date.lexLe_total a.date b.date

theorem sorted_normalize_lt (l : List PricePoint) :
    (normalize l).Pairwise (fun a b => Date.lexLt a.date b.date = true) := by
  have h := (sorted_normalize_le l).and (datesNodup_normalize l)
  exact h.imp (fun hab => Date.lexLt_of_lexLe_of_ne hab.1 hab.2)

/-- The per-date content of the full Normalizer: for every date, the output
holds exactly the last input point carrying that date (nothing when the date
never occurs). -/
theorem filter_normalize (d : Date) (l : List PricePoint) :
    (normalize l).filter (fun r => r.date = d) =
      ((l.filter (fun r => r.date = d)).getLast?).toList := by
  have hperm := (normalize_perm_dedupLast l).filter (fun r => decide (r.date = d))
  rw [filter_dedupLast d l] at hperm
  rcases hlast : (l.filter (fun r => r.date = d)).getLast? with _ | x
  · rw [hlast] at hperm ⊢
    exact hperm.eq_nil
  · rw [hlast] at hperm ⊢
    exact List.perm_singleton.mp hperm

theorem insertSeen_of_fresh {acc : List PricePoint} {p : PricePoint}
    (h : ∀ q ∈ acc, q.date ≠ p.date) : insertSeen acc p = acc ++ [p] := by
  induction acc with
  | nil => rfl
  | cons q qs ih =>
    have hq : q.date ≠ p.date := h q (List.mem_cons_self q qs)
    simp only [insertSeen, if_neg hq, List.cons_append, List.cons.injEq, true_and]
    exact ih (fun r hr => h r (List.mem_cons_of_mem q hr))

theorem foldl_insertSeen_of_datesNodup (l : List PricePoint) :
    ∀ acc, DatesNodup l → (∀ q ∈ acc, ∀ r ∈ l, q.date ≠ r.date) →
      l.foldl insertSeen acc = acc ++ l := by
  induction l with
  | nil => intro acc _ _; simp
  | cons p ps ih =>
    intro acc hnd hdisj
    rcases List.pairwise_cons.mp hnd with ⟨hp, hps⟩
    have hfresh : insertSeen acc p = acc ++ [p] :=
      insertSeen_of_fresh (fun q hq => hdisj q hq p (List.mem_cons_self p ps))
    have hdisj2 : ∀ q ∈ acc ++ [p], ∀ r ∈ ps, q.date ≠ r.date := by
      intro q hq r hr
      rcases List.mem_append.mp hq with hq | hq
      · exact hdisj q hq r (List.mem_cons_of_mem p hr)
      · rcases List.mem_singleton.mp hq with rfl
        exact hp r hr
    calc (p :: ps).foldl insertSeen acc = ps.foldl insertSeen (insertSeen acc p) := rfl
      _ = ps.foldl insertSeen (acc ++ [p]) := by rw [hfresh]
      _ = (acc ++ [p]) ++ ps := ih (acc ++ [p]) hps hdisj2
      _ = acc ++ p :: ps := by simp

theorem dedupLast_of_datesNodup {l : List PricePoint} (h : DatesNodup l) :
    dedupLast l = l := by
  have := foldl_insertSeen_of_datesNodup l [] h (by simp)
  simpa [dedupLast] using this

theorem sortByDate_of_sorted {l : List PricePoint}
    (h : l.Pairwise (fun a b => Date.lexLe a.date b.date = true)) :
    sortByDate l = l :=
  List.mergeSort_of_sorted h

/-- Normalizing twice is normalizing once. -/
theorem normalize_idempotent (l : List PricePoint) :
    normalize (normalize l) = normalize l := by
  rw [normalize, dedupLast_of_datesNodup (datesNodup_normalize l),
    sortByDate_of_sorted (sorted_normalize_le l)]

/-! ## Facts about the anchor scan -/

/-- Declarative reading of the scan result: `a` is a point of the series
satisfying the date-side condition `ok`, every earlier qualifying point is
strictly farther from the target, and no later qualifying point is nearer —
i.e. `a` has minimal absolute day distance and exact ties go to the point
occurring earlier in scan order. -/
def SelectedAnchor (ok : PricePoint → Bool) (target : ℤ)
    (prices : List PricePoint) (a : PricePoint) : Prop :=
  ∃ l1 l2, prices = l1 ++ a :: l2 ∧ ok a = true ∧
    (∀ r ∈ l1, ok r = true → diffTo target a < diffTo target r) ∧
    (∀ r ∈ l2, ok r = true → diffTo target a ≤ diffTo target r)

theorem foldl_closestScanStep_spec (ok : PricePoint → Bool) (target : ℤ) :
    ∀ (l : List PricePoint) (st : Option (ℤ × ℚ)),
      (l.foldl (closestScanStep ok target) st = st ∧
        ∀ r ∈ l, ok r = true → ∃ m c, st = some (m, c) ∧ m ≤ diffTo target r) ∨
      (∃ l1 a l2, l = l1 ++ a :: l2 ∧ ok a = true ∧
        l.foldl (closestScanStep ok target) st = some (diffTo target a, a.price) ∧
        (∀ m c, st = some (m, c) → diffTo target a < m) ∧
        (∀ r ∈ l1, ok r = true → diffTo target a < diffTo target r) ∧
        (∀ r ∈ l2, ok r = true → diffTo target a ≤ diffTo target r)) := by
  intro l
  induction l with
  | nil => intro st; exact Or.inl ⟨rfl, by simp⟩
  | cons p ps ih =>
    intro st
    by_cases hcond : ((match st with
        | none => true
        | some (m, _) => decide (diffTo target p < m)) && ok p) = true
    · have hok : ok p = true := (Bool.and_eq_true _ _ |>.mp hcond).2
      have hlt : ∀ m c, st = some (m, c) → diffTo target p < m := by
        intro m c hmc
        have h1 := (Bool.and_eq_true _ _ |>.mp hcond).1
        rw [hmc] at h1
        exact of_decide_eq_true h1
      have hstep : closestScanStep ok target st p = some (diffTo target p, p.price) := by
        simp only [closestScanStep, if_pos hcond]
      rw [List.foldl_cons, hstep]
      rcases ih (some (diffTo target p, p.price)) with ⟨heq, hall⟩ |
          ⟨l1, a, l2, hsplit, hoka, hres, hst, hl1, hl2⟩
      · refine Or.inr ⟨[], p, ps, by simp, hok, ?_, hlt, by simp, ?_⟩
        · exact heq
        · intro r hr hokr
          rcases hall r hr hokr with ⟨m, c, hmc, hle⟩
          simp only [Option.some.injEq, Prod.mk.injEq] at hmc
          have h1 := hmc.1
          omega
      · refine Or.inr ⟨p :: l1, a, l2, by simp [hsplit], hoka, hres, ?_, ?_, hl2⟩
        · intro m c hmc
          have h1 := hst (diffTo target p) p.price rfl
          have h2 := hlt m c hmc
          omega
        · intro r hr hokr
          rcases List.mem_cons.mp hr with rfl | hr
          · exact hst (diffTo target r) r.price rfl
          · exact hl1 r hr hokr
    · have hstep : closestScanStep ok target st p = st := by
        simp only [closestScanStep, if_neg hcond]
      have hcover : ok p = true → ∃ m c, st = some (m, c) ∧ m ≤ diffTo target p := by
        intro hok
        rcases st with _ | ⟨m, c⟩
        · simp [hok] at hcond
        · refine ⟨m, c, rfl, ?_⟩
          simp only [Bool.and_eq_true, decide_eq_true_eq, hok, and_true] at hcond
          omega
      rw [List.foldl_cons, hstep]
      rcases ih st with ⟨heq, hall⟩ | ⟨l1, a, l2, hsplit, hoka, hres, hst, hl1, hl2⟩
      · refine Or.inl ⟨heq, ?_⟩
        intro r hr hokr
        rcases List.mem_cons.mp hr with rfl | hr
        · exact hcover hokr
        · exact hall r hr hokr
      · refine Or.inr ⟨p :: l1, a, l2, by simp [hsplit], hoka, hres, hst, ?_, hl2⟩
        intro r hr hokr
        rcases List.mem_cons.mp hr with rfl | hr
        · rcases hcover hokr with ⟨m, c, hmc, hle⟩
          have := hst m c hmc
          omega
        · exact hl1 r hr hokr

/-- When some point of the series passes the date-side condition, the scan
returns exactly the distance and price of a `SelectedAnchor`. -/
theorem closestScan_spec {ok : PricePoint → Bool} {target : ℤ}
    {prices : List PricePoint} (hex : ∃ r ∈ prices, ok r = true) :
    ∃ a, SelectedAnchor ok target prices a ∧
      closestScan ok target prices = some (diffTo target a, a.price) := by
  rcases foldl_closestScanStep_spec ok target prices none with ⟨-, hall⟩ |
      ⟨l1, a, l2, hsplit, hoka, hres, -, hl1, hl2⟩
  · rcases hex with ⟨r, hr, hokr⟩
    rcases hall r hr hokr with ⟨m, c, hmc, -⟩
    exact absurd hmc (Option.noConfusion)
  · exact ⟨a, ⟨l1, l2, hsplit, hoka, hl1, hl2⟩, hres⟩

/-! ## Attempt-level model of the crypto fetch (for the retry question)

`get_crypto_data_run` exposes how many requests the function issues:
`upstream n` is what the upstream would answer to the `n`-th request
(0-based).  The body of `get_crypto_data` performs exactly one
`requests.get`; `raise_for_status` turns HTTP error statuses (429
included) into a raised exception, and the single `except` clause returns
`[]`. -/

/-- Outcome of one HTTP request against the crypto upstream. -/
inductive FetchOutcome where
  | http429 : FetchOutcome
  | transportError : FetchOutcome
  | ok : List (Date × ℚ) → FetchOutcome
deriving DecidableEq, Repr

/-- `get_crypto_data` at the attempt level: result series and number of
requests issued. -/
def get_crypto_data_run (upstream : ℕ → FetchOutcome) : List PricePoint × ℕ :=
  match upstream 0 with
  | .ok items => (parseCrypto items, 1)
  | .http429 => ([], 1)
  | .transportError => ([], 1)

/-- Modelled from the spec: the Asset Adapter retry discipline the spec
describes but the code does not contain — up to 3 attempts total, a wait of
`attempt_index * 60` seconds before retrying after a 429, a fixed 5 second
wait before retrying after a generic transport exception, empty result after
exhausting the budget.  `attempt` is 0-based, `budget` is the number of
attempts still allowed; the returned triple is (series, attempts made,
waits performed in seconds). -/
def crypto_fetch_spec_aux (upstream : ℕ → FetchOutcome) :
    ℕ → ℕ → List ℕ → List PricePoint × ℕ × List ℕ
  | _, 0, waits => ([], 0, waits.reverse)
  | attempt, budget + 1, waits =>
    match upstream attempt with
    | .ok items => (parseCrypto items, attempt + 1, waits.reverse)
    | .http429 =>
      if budget = 0 then ([], attempt + 1, waits.reverse)
      else crypto_fetch_spec_aux upstream (attempt + 1) budget ((attempt + 1) * 60 :: waits)
    | .transportError =>
      if budget = 0 then ([], attempt + 1, waits.reverse)
      else crypto_fetch_spec_aux upstream (attempt + 1) budget (5 :: waits)

/-- Modelled from the spec: the whole retrying fetch, 3 attempts total. -/
def crypto_fetch_spec (upstream : ℕ → FetchOutcome) :
    List PricePoint × ℕ × List ℕ :=
  crypto_fetch_spec_aux upstream 0 3 []

/-! ## Pipeline Orchestrator (`main`, lines 255-329)

The static catalog `TREASURY_COMPANIES` and the colour palette are
transcribed verbatim; the two upstream services are oracles from
identifier to what the fetch would decode to (`none` = the fetch raised).
The `updated_at` wall-clock stamp and the JSON file write are outside the
embedding. -/

structure Company where
  ticker : String
  cname : String
deriving DecidableEq, Repr

structure CategoryConfig where
  coin_id : String
  coin_symbol : String
  color : String
  companies : List Company
deriving DecidableEq, Repr

structure CompanyData where
  ticker : String
  cname : String
  color : String
  prices : List PricePoint
  performance : Performance
deriving DecidableEq, Repr

structure CategoryData where
  coin_id : String
  coin_symbol : String
  coin_color : String
  coin_prices : List PricePoint
  coin_performance : Performance
  companies : List CompanyData
deriving DecidableEq, Repr

def STOCK_COLORS : List String :=
  ["#ef4444", "#f97316", "#eab308", "#84cc16", "#22c55e",
   "#14b8a6", "#06b6d4", "#3b82f6", "#8b5cf6", "#ec4899"]

def TREASURY_COMPANIES : List (String × CategoryConfig) :=
  [("BTC", ⟨"bitcoin", "BTC", "#f7931a",
      [⟨"MSTR", "Strategy"⟩, ⟨"XXI", "Twenty One"⟩, ⟨"CEPO", "Bitcoin Standard"⟩,
       ⟨"ASST", "Strive"⟩, ⟨"NAKA", "KindlyMD (Nakamoto)"⟩, ⟨"BRR", "PropCap BTC"⟩,
       ⟨"SQNS", "Sequans Comm"⟩]⟩),
   ("ETH", ⟨"ethereum", "ETH", "#627eea",
      [⟨"BMNR", "BitMine"⟩, ⟨"SBET", "Sharplink Gaming"⟩, ⟨"ETHM", "Ether Machine"⟩,
       ⟨"BTBT", "Bit Digital"⟩, ⟨"BTCS", "BTCS Inc."⟩, ⟨"ETHZ", "ETHZilla"⟩,
       ⟨"FGNX", "FG Nexus"⟩, ⟨"GAME", "GameSquare Holdings"⟩]⟩),
   ("SOL", ⟨"solana", "SOL", "#00ffa3",
      [⟨"FWDI", "Forward Industries"⟩, ⟨"HSDT", "Solana Company"⟩,
       ⟨"DFDV", "DeFi Development"⟩, ⟨"UPXI", "Upexi"⟩, ⟨"STSS", "Sharps Technology"⟩,
       ⟨"STKE", "Sol Strategies"⟩, ⟨"SLMT", "Solmate"⟩, ⟨"SLAI", "SOLAI Limited"⟩]⟩),
   ("HYPE", ⟨"hyperliquid", "HYPE", "#00d4aa",
      [⟨"PURR", "Sonnet BioTher"⟩, ⟨"HYPD", "Hyperion DeFi"⟩]⟩),
   ("SUI", ⟨"sui", "SUI", "#4da2ff", [⟨"SUIG", "SUI Group Holdings"⟩]⟩),
   ("INJ", ⟨"injective-protocol", "INJ", "#00f2fe", [⟨"PAPL", "Pineapple Financial"⟩]⟩),
   ("BNB", ⟨"binancecoin", "BNB", "#f3ba2f", [⟨"BNC", "CEA Industries"⟩]⟩),
   ("BONK", ⟨"bonk", "BONK", "#ff6b35", [⟨"BNKK", "Bonk Inc."⟩]⟩),
   ("IP", ⟨"story-protocol", "IP", "#9945ff", [⟨"IPST", "Heritage Distilling"⟩]⟩)]

/-- Per-company body of the inner loop (lines 296-314):
`STOCK_COLORS[i % len(STOCK_COLORS)]`, fetched series, performance of that
very series. -/
def processCompany (stockFetch : String → Option (List (Date × ℚ)))
    (i : ℕ) (company : Company) : CompanyData :=
  let stock_prices := get_stock_data (stockFetch company.ticker)
  { ticker := company.ticker
    cname := company.cname
    color := STOCK_COLORS.getD (i % STOCK_COLORS.length) ""
    prices := stock_prices
    performance := calculate_performance stock_prices }

/-- Per-category body of the outer loop (lines 274-316). -/
def processCategory (stockFetch cryptoFetch : String → Option (List (Date × ℚ)))
    (config : CategoryConfig) : CategoryData :=
  let coin_prices := get_crypto_data (cryptoFetch config.coin_id)
  { coin_id := config.coin_id
    coin_symbol := config.coin_symbol
    coin_color := config.color
    coin_prices := coin_prices
    coin_performance := calculate_performance coin_prices
    companies := config.companies.enum.map
      (fun ic => processCompany stockFetch ic.1 ic.2) }

/-- The full catalog pass of `main`: one `CategoryData` per catalog entry,
in catalog order. -/
def mainRun (catalog : List (String × CategoryConfig))
    (stockFetch cryptoFetch : String → Option (List (Date × ℚ))) :
    List (String × CategoryData) :=
  catalog.map (fun kc => (kc.1, processCategory stockFetch cryptoFetch kc.2))

/-! ## Helpers for the claim statements -/

set_option maxRecDepth 100000

/-- `prices[-1]` of a series with at least two points. -/
def lastOf (p q : PricePoint) (rest : List PricePoint) : PricePoint :=
  (q :: rest).getLast (List.cons_ne_nil q rest)

theorem lastOf_mem (p q : PricePoint) (rest : List PricePoint) :
    lastOf p q rest ∈ p :: q :: rest :=
  List.mem_cons_of_mem p (List.getLast_mem (List.cons_ne_nil q rest))

/-- The report field carrying a given fixed-window length. -/
def fieldFor (days : ℤ) (perf : Performance) : Option ℚ :=
  if days = 7 then perf.p1W
  else if days = 90 then perf.p3M
  else if days = 180 then perf.p6M
  else perf.p1Y

theorem calcPerf_fieldFor (p q : PricePoint) (rest : List PricePoint) {days : ℤ}
    (h : days ∈ ([7, 90, 180, 365] : List ℤ)) :
    fieldFor days (calculate_performance (p :: q :: rest)) =
      periodResult (fun r => Date.lexLe r.date (lastOf p q rest).date)
        ((lastOf p q rest).date.toOrdinal - days) (lastOf p q rest).price
        (p :: q :: rest) := by
  simp only [List.mem_cons, List.not_mem_nil, or_false] at h
  rcases h with rfl | rfl | rfl | rfl <;> rfl

theorem calcPerf_pYTD (p q : PricePoint) (rest : List PricePoint) :
    (calculate_performance (p :: q :: rest)).pYTD =
      periodResult
        (fun r => Date.lexLe ⟨(lastOf p q rest).date.year, 1, 1⟩ r.date)
        (Date.toOrdinal ⟨(lastOf p q rest).date.year, 1, 1⟩)
        (lastOf p q rest).price (p :: q :: rest) := rfl

theorem periodResult_eq_of_scan {ok : PricePoint → Bool} {target : ℤ}
    {cp : ℚ} {prices : List PricePoint} {a : PricePoint}
    (h : closestScan ok target prices = some (diffTo target a, a.price)) :
    periodResult ok target cp prices =
      (if 0 < a.price then some (pyRound 2 ((cp - a.price) / a.price * 100))
       else none) := by
  simp only [periodResult, h]

theorem periodResult_some_of_scan {ok : PricePoint → Bool} {target : ℤ}
    {cp : ℚ} {prices : List PricePoint} {m : ℤ} {c : ℚ}
    (h : closestScan ok target prices = some (m, c)) :
    (c ≤ 0 → periodResult ok target cp prices = none) ∧
    (∀ v, periodResult ok target cp prices = some v →
      0 < c ∧ v = pyRound 2 ((cp - c) / c * 100)) := by
  simp only [periodResult, h]
  constructor
  · intro hc
    rw [if_neg (not_lt.mpr hc)]
  · intro v hv
    by_cases h0 : 0 < c
    · rw [if_pos h0] at hv
      exact ⟨h0, (Option.some.inj hv).symm⟩
    · rw [if_neg h0] at hv
      cases hv

theorem periodResult_none_iff {ok : PricePoint → Bool} {target : ℤ}
    {cp : ℚ} {prices : List PricePoint} {a : PricePoint}
    (h : closestScan ok target prices = some (diffTo target a, a.price)) :
    (periodResult ok target cp prices = none ↔ a.price ≤ 0) := by
  simp only [periodResult, h]
  rcases le_or_lt a.price 0 with h0 | h0
  · rw [if_neg (not_lt.mpr h0)]
    exact iff_of_true rfl h0
  · rw [if_pos h0]
    exact iff_of_false (by simp) (not_le.mpr h0)

/-- Points of the series `[(d-400, 100), (d-7, 90), (d, 120)]` of the spec
example, with d = 2025-12-31 (so d-7 = 2025-12-24 and d-400 = 2024-11-26). -/
def exA : PricePoint := ⟨⟨2024, 11, 26⟩, 100⟩

def exB : PricePoint := ⟨⟨2025, 12, 24⟩, 90⟩

def exC : PricePoint := ⟨⟨2025, 12, 31⟩, 120⟩

def exampleSeries : List PricePoint := [exA, exB, exC]

/-! ## Claims -/

/-- C4: for every input sequence, the Normalizer output has strictly
ascending dates (hence no two points share a date), and for every date the
output carries exactly the last input pair with that date, when one
exists. -/
theorem C4_normalizer_ascending_last_wins (prices : List PricePoint) :
    (normalize prices).Pairwise (fun a b => Date.lexLt a.date b.date = true) ∧
    ∀ d : Date, (normalize prices).filter (fun r => r.date = d) =
      ((prices.filter (fun r => r.date = d)).getLast?).toList :=
  ⟨sorted_normalize_lt prices, fun d => filter_normalize d prices⟩

/-- C9: the Normalizer is idempotent — normalizing twice is normalizing
once, for every input sequence. -/
theorem C9_normalizer_idempotent (prices : List PricePoint) :
    normalize (normalize prices) = normalize prices :=
  normalize_idempotent prices

/-- C7: a series with fewer than 2 points yields the explicit all-null
report — every period maps to `none`, no error, no zero. -/
theorem C7_short_series_all_null (prices : List PricePoint)
    (h : prices.length < 2) : calculate_performance prices = allNull := by
  match prices with
  | [] => rfl
  | [_] => rfl
  | a :: b :: t => exact absurd h (by simp)

/-- Witness for C7 at the two concrete short inputs. -/
theorem C7_short_series_all_null_witness :
    ([] : List PricePoint).length < 2 ∧
      calculate_performance [] = allNull ∧
    [exA].length < 2 ∧ calculate_performance [exA] = allNull :=
  ⟨by decide, C7_short_series_all_null [] (by decide), by decide,
    C7_short_series_all_null [exA] (by decide)⟩

/-- C3: for every series with at least 2 points and each fixed-window
period (7, 90, 180, 365 days back from the last date), the result field is
computed from a `SelectedAnchor` — a point on or before the last date at
minimal absolute day distance to the target, exact ties resolved to the
earlier point in scan order — by `(last - anchor) / anchor * 100` rounded
to 2 decimals (null when the anchor price is not positive); and on the
spec example `[(d-400, 100), (d-7, 90), (d, 120)]` the 1W value is
33.33. -/
theorem C3_fixed_window_anchor_formula :
    (∀ (p q : PricePoint) (rest : List PricePoint) (days : ℤ),
      days ∈ ([7, 90, 180, 365] : List ℤ) →
      ∃ a, SelectedAnchor (fun r => Date.lexLe r.date (lastOf p q rest).date)
          ((lastOf p q rest).date.toOrdinal - days) (p :: q :: rest) a ∧
        fieldFor days (calculate_performance (p :: q :: rest)) =
          (if 0 < a.price then
            some (pyRound 2 (((lastOf p q rest).price - a.price) / a.price * 100))
          else none)) ∧
    exC.date.toOrdinal - exB.date.toOrdinal = 7 ∧
    exC.date.toOrdinal - exA.date.toOrdinal = 400 ∧
    (calculate_performance exampleSeries).p1W = some (3333 / 100) := by
  refine ⟨?_, by decide, by decide, by with_unfolding_all rfl⟩
  intro p q rest days hdays
  have hex : ∃ r ∈ p :: q :: rest,
      (fun r : PricePoint => Date.lexLe r.date (lastOf p q rest).date) r = true :=
    ⟨lastOf p q rest, lastOf_mem p q rest, Date.lexLe_refl _⟩
  rcases closestScan_spec hex with ⟨a, hsel, hscan⟩
  exact ⟨a, hsel, by
    rw [calcPerf_fieldFor p q rest hdays, periodResult_eq_of_scan hscan]⟩

/-- Witness for C3 at the spec example series and the 1W period. -/
theorem C3_fixed_window_anchor_formula_witness :
    (7 : ℤ) ∈ ([7, 90, 180, 365] : List ℤ) ∧
    ∃ a, SelectedAnchor (fun r => Date.lexLe r.date (lastOf exA exB [exC]).date)
        ((lastOf exA exB [exC]).date.toOrdinal - 7) (exA :: exB :: [exC]) a ∧
      fieldFor 7 (calculate_performance (exA :: exB :: [exC])) =
        (if 0 < a.price then
          some (pyRound 2 (((lastOf exA exB [exC]).price - a.price) / a.price * 100))
        else none) :=
  ⟨by decide, C3_fixed_window_anchor_formula.1 exA exB [exC] 7 (by decide)⟩

/-- C5: for every series with at least 2 points (whose last date is a
representable calendar date), the YTD field is computed from a
`SelectedAnchor` for the condition `on or after January 1 of the last
date year` at minimal absolute day distance to that January 1, exact
ties to the earlier point in scan order, with the same ratio formula and
null handling as the fixed windows. -/
theorem C5_ytd_anchor_formula (p q : PricePoint) (rest : List PricePoint)
    (hv : (lastOf p q rest).date.Valid) :
    ∃ a, SelectedAnchor
        (fun r => Date.lexLe ⟨(lastOf p q rest).date.year, 1, 1⟩ r.date)
        (Date.toOrdinal ⟨(lastOf p q rest).date.year, 1, 1⟩)
        (p :: q :: rest) a ∧
      (calculate_performance (p :: q :: rest)).pYTD =
        (if 0 < a.price then
          some (pyRound 2 (((lastOf p q rest).price - a.price) / a.price * 100))
        else none) := by
  have hex : ∃ r ∈ p :: q :: rest,
      (fun r : PricePoint =>
        Date.lexLe ⟨(lastOf p q rest).date.year, 1, 1⟩ r.date) r = true :=
    ⟨lastOf p q rest, lastOf_mem p q rest, Date.jan1_lexLe hv⟩
  rcases closestScan_spec hex with ⟨a, hsel, hscan⟩
  exact ⟨a, hsel, by rw [calcPerf_pYTD, periodResult_eq_of_scan hscan]⟩

/-- Witness for C5 at the spec example series (last date 2025-12-31). -/
theorem C5_ytd_anchor_formula_witness :
    (lastOf exA exB [exC]).date.Valid ∧
    ∃ a, SelectedAnchor
        (fun r => Date.lexLe ⟨(lastOf exA exB [exC]).date.year, 1, 1⟩ r.date)
        (Date.toOrdinal ⟨(lastOf exA exB [exC]).date.year, 1, 1⟩)
        (exA :: exB :: [exC]) a ∧
      (calculate_performance (exA :: exB :: [exC])).pYTD =
        (if 0 < a.price then
          some (pyRound 2 (((lastOf exA exB [exC]).price - a.price) / a.price * 100))
        else none) :=
  ⟨by decide, C5_ytd_anchor_formula exA exB [exC] (by decide)⟩

/-- C8: whenever the scan of a period (fixed windows and YTD alike) selects
an anchor with non-positive price, the period field is `none`; and a
`some` value can only arise from a strictly positive anchor price, in which
case it is exactly the rounded ratio — the division is never performed
otherwise. -/
theorem C8_nonpositive_anchor_gives_null (p q : PricePoint)
    (rest : List PricePoint) :
    (∀ days ∈ ([7, 90, 180, 365] : List ℤ), ∀ (m : ℤ) (c : ℚ),
      closestScan (fun r => Date.lexLe r.date (lastOf p q rest).date)
          ((lastOf p q rest).date.toOrdinal - days) (p :: q :: rest) =
        some (m, c) →
      (c ≤ 0 → fieldFor days (calculate_performance (p :: q :: rest)) = none) ∧
      (∀ v, fieldFor days (calculate_performance (p :: q :: rest)) = some v →
        0 < c ∧ v = pyRound 2 (((lastOf p q rest).price - c) / c * 100))) ∧
    (∀ (m : ℤ) (c : ℚ),
      closestScan (fun r => Date.lexLe ⟨(lastOf p q rest).date.year, 1, 1⟩ r.date)
          (Date.toOrdinal ⟨(lastOf p q rest).date.year, 1, 1⟩) (p :: q :: rest) =
        some (m, c) →
      (c ≤ 0 → (calculate_performance (p :: q :: rest)).pYTD = none) ∧
      (∀ v, (calculate_performance (p :: q :: rest)).pYTD = some v →
        0 < c ∧ v = pyRound 2 (((lastOf p q rest).price - c) / c * 100))) := by
  constructor
  · intro days hdays m c hscan
    rw [calcPerf_fieldFor p q rest hdays]
    exact periodResult_some_of_scan hscan
  · intro m c hscan
    rw [calcPerf_pYTD]
    exact periodResult_some_of_scan hscan

/-- Witness for C8: a two-point series whose 1W anchor price is 0 yields a
null 1W value. -/
theorem C8_nonpositive_anchor_gives_null_witness :
    closestScan
        (fun r => Date.lexLe r.date
          (lastOf ⟨⟨2025, 12, 24⟩, 0⟩ ⟨⟨2025, 12, 31⟩, 10⟩ []).date)
        ((lastOf ⟨⟨2025, 12, 24⟩, 0⟩ ⟨⟨2025, 12, 31⟩, 10⟩ []).date.toOrdinal - 7)
        [⟨⟨2025, 12, 24⟩, 0⟩, ⟨⟨2025, 12, 31⟩, 10⟩] = some (0, 0) ∧
    fieldFor 7 (calculate_performance
      [⟨⟨2025, 12, 24⟩, (0 : ℚ)⟩, ⟨⟨2025, 12, 31⟩, 10⟩]) = none :=
  ⟨by decide,
    ((C8_nonpositive_anchor_gives_null ⟨⟨2025, 12, 24⟩, 0⟩ ⟨⟨2025, 12, 31⟩, 10⟩ []).1
      7 (by decide) 0 0 (by decide)).1 (by norm_num)⟩

/-- C10: for every series with at least 2 points (last date representable),
the anchor scan succeeds for all four fixed windows and for YTD — the last
point itself qualifies on both sides — so a null period value arises exactly
when the selected anchor price is non-positive. -/
theorem C10_anchor_always_exists (p q : PricePoint) (rest : List PricePoint)
    (hv : (lastOf p q rest).date.Valid) :
    (∀ days ∈ ([7, 90, 180, 365] : List ℤ), ∃ (m : ℤ) (c : ℚ),
      closestScan (fun r => Date.lexLe r.date (lastOf p q rest).date)
          ((lastOf p q rest).date.toOrdinal - days) (p :: q :: rest) =
        some (m, c) ∧
      (fieldFor days (calculate_performance (p :: q :: rest)) = none ↔ c ≤ 0)) ∧
    (∃ (m : ℤ) (c : ℚ),
      closestScan (fun r => Date.lexLe ⟨(lastOf p q rest).date.year, 1, 1⟩ r.date)
          (Date.toOrdinal ⟨(lastOf p q rest).date.year, 1, 1⟩) (p :: q :: rest) =
        some (m, c) ∧
      ((calculate_performance (p :: q :: rest)).pYTD = none ↔ c ≤ 0)) := by
  constructor
  · intro days hdays
    have hex : ∃ r ∈ p :: q :: rest,
        (fun r : PricePoint => Date.lexLe r.date (lastOf p q rest).date) r = true :=
      ⟨lastOf p q rest, lastOf_mem p q rest, Date.lexLe_refl _⟩
    rcases closestScan_spec hex with ⟨a, -, hscan⟩
    refine ⟨_, _, hscan, ?_⟩
    rw [calcPerf_fieldFor p q rest hdays]
    exact periodResult_none_iff hscan
  · have hex : ∃ r ∈ p :: q :: rest,
        (fun r : PricePoint =>
          Date.lexLe ⟨(lastOf p q rest).date.year, 1, 1⟩ r.date) r = true :=
      ⟨lastOf p q rest, lastOf_mem p q rest, Date.jan1_lexLe hv⟩
    rcases closestScan_spec hex with ⟨a, -, hscan⟩
    refine ⟨_, _, hscan, ?_⟩
    rw [calcPerf_pYTD]
    exact periodResult_none_iff hscan

/-- Witness for C10 at the spec example series, 1Y window and YTD. -/
theorem C10_anchor_always_exists_witness :
    (lastOf exA exB [exC]).date.Valid ∧
    (∃ (m : ℤ) (c : ℚ),
      closestScan (fun r => Date.lexLe r.date (lastOf exA exB [exC]).date)
          ((lastOf exA exB [exC]).date.toOrdinal - 365) (exA :: exB :: [exC]) =
        some (m, c) ∧
      (fieldFor 365 (calculate_performance (exA :: exB :: [exC])) = none ↔ c ≤ 0)) ∧
    (∃ (m : ℤ) (c : ℚ),
      closestScan (fun r => Date.lexLe ⟨(lastOf exA exB [exC]).date.year, 1, 1⟩ r.date)
          (Date.toOrdinal ⟨(lastOf exA exB [exC]).date.year, 1, 1⟩)
          (exA :: exB :: [exC]) =
        some (m, c) ∧
      ((calculate_performance (exA :: exB :: [exC])).pYTD = none ↔ c ≤ 0)) :=
  ⟨by decide,
    (C10_anchor_always_exists exA exB [exC] (by decide)).1 365 (by decide),
    (C10_anchor_always_exists exA exB [exC] (by decide)).2⟩

/-- An upstream that answers 429 to the first request and would succeed on
the second. -/
def u429 : ℕ → FetchOutcome :=
  fun n => if n = 0 then .http429
    else .ok [(⟨2024, 1, 1⟩, 10), (⟨2024, 1, 2⟩, 12)]

/-- C1 counterexample: against an upstream whose first answer is a 429 and
whose second would succeed, the code issues exactly one request and returns
empty, while the retry discipline the claim describes would wait 60 s,
retry, and succeed on attempt 2 — so the code and the claimed behaviour
differ at this input. -/
theorem C1_counterexample_no_retry :
    (get_crypto_data_run u429).2 = 1 ∧
    (get_crypto_data_run u429).1 = [] ∧
    (crypto_fetch_spec u429).2.1 = 2 ∧
    (crypto_fetch_spec u429).2.2 = [60] ∧
    (crypto_fetch_spec u429).1 = parseCrypto [(⟨2024, 1, 1⟩, 10), (⟨2024, 1, 2⟩, 12)] ∧
    get_crypto_data_run u429 ≠
      ((crypto_fetch_spec u429).1, (crypto_fetch_spec u429).2.1) := by
  refine ⟨rfl, rfl, rfl, rfl, rfl, ?_⟩
  intro h
  have e1 : (get_crypto_data_run u429).2 = 1 := rfl
  rw [h] at e1
  have e2 : (2 : ℕ) = 1 := e1
  exact (by decide : ¬ (2 : ℕ) = 1) e2

/-- C1 amended: `get_crypto_data` issues exactly one request per call; a 429
or a transport failure on that single request yields an empty result with no
retry and no backoff wait, and only a first-request success yields data. -/
theorem C1_single_attempt_never_retries (upstream : ℕ → FetchOutcome) :
    (get_crypto_data_run upstream).2 = 1 ∧
    ((upstream 0 = .http429 ∨ upstream 0 = .transportError) →
      (get_crypto_data_run upstream).1 = []) ∧
    (∀ items, upstream 0 = .ok items →
      (get_crypto_data_run upstream).1 = parseCrypto items) := by
  refine ⟨?_, ?_, ?_⟩
  · rcases h : upstream 0 with _ | _ | items <;>
      simp [get_crypto_data_run, h]
  · intro hfail
    rcases hfail with h | h <;> simp [get_crypto_data_run, h]
  · intro items h
    simp [get_crypto_data_run, h]

/-- Witness for C1 (amended) at the concrete 429-then-success upstream. -/
theorem C1_single_attempt_never_retries_witness :
    (get_crypto_data_run u429).2 = 1 ∧ (get_crypto_data_run u429).1 = [] :=
  ⟨(C1_single_attempt_never_retries u429).1,
    (C1_single_attempt_never_retries u429).2.1 (Or.inl rfl)⟩

/-- C2: adapters return empty on a raised fetch (`none`), never
propagating; the run emits one record per catalog entry in catalog order,
and every failed asset — coin or company — appears with an empty series and
the all-null report. -/
theorem C2_run_completes_failed_assets_empty
    (catalog : List (String × CategoryConfig))
    (stockFetch cryptoFetch : String → Option (List (Date × ℚ))) :
    get_stock_data none = [] ∧ get_crypto_data none = [] ∧
    (mainRun catalog stockFetch cryptoFetch).map Prod.fst = catalog.map Prod.fst ∧
    ∀ k cfg, (k, cfg) ∈ catalog →
      (k, processCategory stockFetch cryptoFetch cfg) ∈
          mainRun catalog stockFetch cryptoFetch ∧
      (cryptoFetch cfg.coin_id = none →
        (processCategory stockFetch cryptoFetch cfg).coin_prices = [] ∧
        (processCategory stockFetch cryptoFetch cfg).coin_performance = allNull) ∧
      ∀ ic ∈ cfg.companies.enum,
        processCompany stockFetch ic.1 ic.2 ∈
            (processCategory stockFetch cryptoFetch cfg).companies ∧
        (stockFetch ic.2.ticker = none →
          (processCompany stockFetch ic.1 ic.2).prices = [] ∧
          (processCompany stockFetch ic.1 ic.2).performance = allNull) := by
  refine ⟨rfl, rfl, ?_, ?_⟩
  · rw [mainRun, List.map_map]
    rfl
  · intro k cfg hmem
    refine ⟨List.mem_map_of_mem _ hmem, ?_, ?_⟩
    · intro hnone
      constructor
      · simp [processCategory, hnone, get_crypto_data]
      · simp [processCategory, hnone, get_crypto_data, calculate_performance, allNull]
    · intro ic hic
      refine ⟨?_, ?_⟩
      · simp only [processCategory]
        exact List.mem_map_of_mem _ hic
      · intro hnone
        constructor
        · simp [processCompany, hnone, get_stock_data]
        · simp [processCompany, hnone, get_stock_data, calculate_performance, allNull]

/-- The one-category, one-company catalog used as concrete input. -/
def btcCfg : CategoryConfig :=
  ⟨"bitcoin", "BTC", "#f7931a", [⟨"MSTR", "Strategy"⟩]⟩

/-- A fully failing upstream: every fetch raises. -/
def noneFetch : String → Option (List (Date × ℚ)) := fun _ => none

/-- Witness for C2: with every fetch failing, the single catalog entry is
still produced, with empty series and all-null reports. -/
theorem C2_run_completes_failed_assets_empty_witness :
    (mainRun [("BTC", btcCfg)] noneFetch noneFetch).map Prod.fst = ["BTC"] ∧
    (processCategory noneFetch noneFetch btcCfg).coin_prices = [] ∧
    (processCategory noneFetch noneFetch btcCfg).coin_performance = allNull ∧
    (processCompany noneFetch 0 ⟨"MSTR", "Strategy"⟩).prices = [] ∧
    (processCompany noneFetch 0 ⟨"MSTR", "Strategy"⟩).performance = allNull := by
  have h := C2_run_completes_failed_assets_empty [("BTC", btcCfg)] noneFetch noneFetch
  have hcat := (h.2.2.2 "BTC" btcCfg (by simp)).2.1 rfl
  have hcomp := ((h.2.2.2 "BTC" btcCfg (by simp)).2.2 (0, ⟨"MSTR", "Strategy"⟩)
    (by simp [btcCfg])).2 rfl
  exact ⟨h.2.2.1, hcat.1, hcat.2, hcomp.1, hcomp.2⟩

/-- Upstream rows with a duplicate, out-of-order date, as a stock source
could emit. -/
def dupRows : List (Date × ℚ) :=
  [(⟨2024, 1, 2⟩, 10), (⟨2024, 1, 1⟩, 11), (⟨2024, 1, 1⟩, 12)]

/-- The equity series those rows become — handed to the calculator as is. -/
def dupSeries : List PricePoint := get_stock_data (some dupRows)

/-- A stock upstream returning those rows for every ticker. -/
def dupFetch : String → Option (List (Date × ℚ)) := fun _ => some dupRows

/-- C6 counterexample: the run hands the equity series to the Performance
Calculator exactly as the adapter returned it — duplicated and out-of-order
dates included — so the series handed over is not strictly ascending with
unique dates.  The Normalizer runs only inside the crypto adapter. -/
theorem C6_counterexample_stock_not_normalized :
    (mainRun [("BTC", btcCfg)] dupFetch noneFetch).map
        (fun kc => kc.2.companies.map (fun cd => (cd.prices, cd.performance)))
      = [[(dupSeries, calculate_performance dupSeries)]] ∧
    ¬ dupSeries.Pairwise (fun a b => Date.lexLt a.date b.date = true) := by
  constructor
  · rfl
  · decide

/-- C6 amended: the dedup-and-sort step runs on the crypto adapter output
only — every crypto series is strictly ascending with unique dates, while
the equity adapter returns its rows unchanged (rounded, in upstream
order). -/
theorem C6_only_crypto_normalized :
    (∀ fetched, (get_crypto_data fetched).Pairwise
      (fun a b => Date.lexLt a.date b.date = true)) ∧
    (∀ rows : List (Date × ℚ), get_stock_data (some rows) =
      rows.map (fun row => ⟨row.1, pyRound 2 row.2⟩)) := by
  constructor
  · intro fetched
    rcases fetched with _ | items
    · exact List.Pairwise.nil
    · exact sorted_normalize_lt (items.map roundTiered)
  · intro rows
    rcases rows with _ | ⟨r, rs⟩
    · rfl
    · simp [get_stock_data]

end CryptoTreasury
